import Mathlib

/-!
Shallow embedding of the core of `vsix-utils` (a VSIX packaging library):
the file-collection engine, the dependency-tree resolution and flattening
engine, the extension-kind classifier and the asset locator, translated
from `src/files.ts` and `src/manifest.ts`.

JavaScript strings are modelled as Lean `String`s; the handful of string
and path primitives the code uses (`String.prototype.split`,
`String.prototype.replace`, `path.join`, `path.extname`, ...) are
implemented below on `List Char`, structurally recursive so that concrete
runs evaluate inside the kernel.  External collaborators (the package
manager CLIs, `JSON.parse`, the `mime` lookup table, the glob walker and
the compiled ignore matcher) are modelled as explicit inputs or function
parameters, exactly at the interface boundary the code consumes them.
-/

namespace VsixUtils

/-! ### JS string primitives -/

/-- Splits a character list at every occurrence of the separator
character, keeping empty chunks, like `"a//b".split("/")` giving
`["a", "", "b"]` in JavaScript.  `acc` holds the current chunk reversed. -/
def splitCharAux (sep : Char) (acc : List Char) : List Char → List (List Char)
  | [] => [acc.reverse]
  | c :: cs =>
    if c = sep then acc.reverse :: splitCharAux sep [] cs
    else splitCharAux sep (c :: acc) cs

/-- JavaScript `s.split(sep)` for a single-character separator. -/
def splitChar (sep : Char) (s : String) : List String :=
  (splitCharAux sep [] s.data).map String.mk

/-- One step of JavaScript `String.prototype.split` with a multi-character
separator: scans left to right, cutting at each non-overlapping occurrence
of `sep`.  The fuel argument makes the recursion structural; callers pass
`length + 1`, which is always enough because each step consumes at least
one character when `sep` is nonempty. -/
def jsSplitAux (sep : List Char) : Nat → List Char → List Char → List (List Char)
  | 0, acc, l => [acc.reverse ++ l]
  | _ + 1, acc, [] => [acc.reverse]
  | fuel + 1, acc, c :: cs =>
    if sep.isPrefixOf (c :: cs) then
      acc.reverse :: jsSplitAux sep fuel [] ((c :: cs).drop sep.length)
    else
      jsSplitAux sep fuel (c :: acc) cs

/-- JavaScript `s.split(sep)` for a nonempty string separator (the code
only ever splits on the fixed separator `"/node_modules/"` and `"@"`). -/
def jsSplit (sep : String) (s : String) : List String :=
  (jsSplitAux sep.data (s.data.length + 1) [] s.data).map String.mk

/-- JavaScript `s.replace(/a/g, b)` for single characters, as used by
`dependency.replace(/\\/g, "/")`. -/
def charReplace (a b : Char) (s : String) : String :=
  String.mk (s.data.map fun c => if c = a then b else c)

/-- One step of JavaScript `String.prototype.replace` with a plain string
pattern, which replaces only the first occurrence.  Fueled like
`jsSplitAux`. -/
def jsReplaceFirstAux (pat repl : List Char) : Nat → List Char → List Char → List Char
  | 0, acc, l => acc.reverse ++ l
  | _ + 1, acc, [] => acc.reverse
  | fuel + 1, acc, c :: cs =>
    if pat.isPrefixOf (c :: cs) then
      acc.reverse ++ repl ++ ((c :: cs).drop pat.length)
    else
      jsReplaceFirstAux pat repl fuel (c :: acc) cs

/-- JavaScript `s.replace(pat, repl)` with a plain (nonempty) string
pattern: only the first occurrence is replaced, and `s` is returned
unchanged when the pattern does not occur. -/
def jsReplaceFirst (s pat repl : String) : String :=
  String.mk (jsReplaceFirstAux pat.data repl.data (s.data.length + 1) [] s.data)

/-- JavaScript `s.startsWith(pre)`. -/
def strStartsWith (s pre : String) : Bool :=
  pre.data.isPrefixOf s.data

/-- JavaScript `s.endsWith(post)`. -/
def strEndsWith (s post : String) : Bool :=
  post.data.isSuffixOf s.data

/-- JavaScript `s.toLowerCase()` (ASCII-adequate model). -/
def strToLower (s : String) : String :=
  String.mk (s.data.map Char.toLower)

/-- The test `/@[\^~]/.test(s)`: does `s` contain a `@` immediately
followed by `^` or `~`?  Used by the yarn tree pruning. -/
def hasAtRangeChar : List Char → Bool
  | [] => false
  | [_] => false
  | a :: b :: rest =>
    if a = '@' ∧ (b = '^' ∨ b = '~') then true else hasAtRangeChar (b :: rest)

/-- String wrapper for `hasAtRangeChar`. -/
def hasAtRange (s : String) : Bool :=
  hasAtRangeChar s.data

/-- First-match association-list lookup, modelling property access on a
parsed JS object (whose keys are unique after `JSON.parse`). -/
def lookupStr : List (String × String) → String → Option String
  | [], _ => none
  | (k, v) :: rest, key => if k = key then some v else lookupStr rest key

/-! ### POSIX path model (`node:path` on a POSIX platform, `path.sep = "/"`)

`path.join` concatenates the non-empty parts with `"/"` and normalizes the
result (collapsing empty and `"."` segments and resolving `".."`).  The
model does not preserve a trailing slash, which node does; no caller in the
embedded code ever produces a trailing slash. -/

/-- Splits a path into its `"/"`-separated segments. -/
def pathSegs (l : List Char) : List (List Char) :=
  splitCharAux '/' [] l

/-- Joins segments with `"/"`, the inverse of `pathSegs` on good input. -/
def joinSegs : List (List Char) → List Char
  | [] => []
  | [s] => s
  | s :: rest => s ++ '/' :: joinSegs rest

/-- Normalization pass over path segments: drops empty and `"."` segments,
resolves `".."` against the segment stack (kept reversed in `acc`); a
leading `".."` is dropped on an absolute path and kept on a relative one. -/
def normSegsAux (abs : Bool) (acc : List (List Char)) : List (List Char) → List (List Char)
  | [] => acc.reverse
  | seg :: rest =>
    if seg = [] ∨ seg = ['.'] then normSegsAux abs acc rest
    else if seg = ['.', '.'] then
      match acc with
      | [] => if abs then normSegsAux abs [] rest else normSegsAux abs [['.', '.']] rest
      | top :: acc' =>
        if top = ['.', '.'] then normSegsAux abs (['.', '.'] :: top :: acc') rest
        else normSegsAux abs acc' rest
    else normSegsAux abs (seg :: acc) rest

/-- Model of `path.posix.normalize` (modulo trailing-slash preservation). -/
def posixNormalize (s : String) : String :=
  let abs : Bool := strStartsWith s "/"
  let body := joinSegs (normSegsAux abs [] (pathSegs s.data))
  if abs then String.mk ('/' :: body)
  else if body = [] then "." else String.mk body

/-- Model of `path.posix.join` on a list of parts. -/
def posixJoinList (parts : List String) : String :=
  let ps := parts.filter (fun p => p ≠ "")
  if ps = [] then "." else posixNormalize (String.mk (joinSegs (ps.map String.data)))

/-- Model of `path.join(a, b)`. -/
def posixJoin (a b : String) : String :=
  posixJoinList [a, b]

/-- Model of `path.join(a, b, c)`. -/
def posixJoin3 (a b c : String) : String :=
  posixJoinList [a, b, c]

/-- Model of `path.extname`: the substring of the basename from its last `.`;
empty when the basename has no `.`, starts with its only `.`, or is
`".."`. -/
def extname (p : String) : String :=
  let base := (p.data.reverse.takeWhile (fun c => c ≠ '/')).reverse
  let afterDot := base.reverse.takeWhile (fun c => c ≠ '.')
  if afterDot.length = base.length then ""
  else
    let dotIdx := base.length - afterDot.length - 1
    if dotIdx = 0 then ""
    else if base = ['.', '.'] then ""
    else String.mk (base.drop dotIdx)

/-! ### Data model (`src/types.ts`, `src/files.ts`) -/

/-- The type `ExtensionKind` from `src/types.ts`: `"ui" | "workspace" | "web"`. -/
inductive ExtensionKind where
  | ui
  | workspace
  | web
deriving DecidableEq, Repr

/-- The declared `extensionKind` manifest field, whose TypeScript type is
`ExtensionKind[] | ExtensionKind`. -/
inductive ExtensionKindDecl where
  | one (k : ExtensionKind)
  | many (ks : List ExtensionKind)
deriving DecidableEq, Repr

/-- The manifest fields consumed by the embedded code.  `contributes` is
modelled by its key list (the code only ever calls `Object.keys` on it);
`dependencies` by its key/value pairs. -/
structure Manifest where
  main : Option String := none
  browser : Option String := none
  extensionKind : Option ExtensionKindDecl := none
  extensionPack : Option (List String) := none
  extensionDependencies : Option (List String) := none
  contributes : Option (List String) := none
  dependencies : Option (List (String × String)) := none
  icon : Option String := none
deriving DecidableEq, Repr

/-- The type `VsixFile` from `src/files.ts`: a local file reference or an in-memory
file, each with an archive `path`. -/
inductive VsixFile where
  | localFile (path : String) (localPath : String)
  | inMemoryFile (path : String) (contents : String)
deriving DecidableEq, Repr

/-- The archive path of a `VsixFile`. -/
def VsixFile.path : VsixFile → String
  | .localFile p _ => p
  | .inMemoryFile p _ => p

/-- Replaces the archive path of a `VsixFile`, keeping the other field,
modelling the spread `{ ...entry, path: ... }` in `processFiles`. -/
def VsixFile.withPath : VsixFile → String → VsixFile
  | .localFile _ lp, p => .localFile p lp
  | .inMemoryFile _ c, p => .inMemoryFile p c

/-- The record `ExtensionDependency` from `src/files.ts`:
`{name: string, version?: string, path: string}`. -/
structure ExtensionDependency where
  name : String
  version : Option String
  path : String
deriving DecidableEq, Repr

/-! ### Extension-kind classifier (`src/manifest.ts`, `transformExtensionKind`) -/

/-- The fixed `CONTRIBUTION_POINTS_FOR_EXTENSION_KIND` lookup table. -/
def contributionPointsForExtensionKind (key : String) : Option (List ExtensionKind) :=
  if key = "jsonValidation" then some [.workspace, .web]
  else if key = "localizations" then some [.ui, .workspace]
  else if key = "debuggers" then some [.workspace]
  else if key = "terminal" then some [.workspace]
  else if key = "typescriptServerPlugins" then some [.workspace]
  else if key = "markdown.previewStyles" then some [.workspace, .web]
  else if key = "markdown.previewScripts" then some [.workspace, .web]
  else if key = "markdown.markdownItPlugins" then some [.workspace, .web]
  else if key = "html.customData" then some [.workspace, .web]
  else if key = "css.customData" then some [.workspace, .web]
  else none

/-- The contribution-point narrowing loop at the end of
`transformExtensionKind`: for each key found in the lookup table, keep
only the kinds the table allows. -/
def narrowKinds (result : List ExtensionKind) : List String → List ExtensionKind
  | [] => result
  | key :: rest =>
    match contributionPointsForExtensionKind key with
    | some supportedKinds => narrowKinds (result.filter (fun k => k ∈ supportedKinds)) rest
    | none => narrowKinds result rest

/-- The helper `isNonEmptyArray` from `transformExtensionKind`
(`Array.isArray(obj) && obj.length > 0`; `undefined` is not an array). -/
def isNonEmptyArray : Option (List String) → Bool
  | some l => !l.isEmpty
  | none => false

/-- The classifier `transformExtensionKind(manifest)` from `src/manifest.ts`.

The JavaScript function returns only the kind list, but when
`manifest.extensionKind` is an array, `explicitKinds` *aliases* that array
and `explicitKinds.push("web")` mutates the caller's manifest in place.
The model makes that effect explicit by also returning the manifest as it
is left after the call; the first component is the JS return value. -/
def transformExtensionKind (manifest : Manifest) : List ExtensionKind × Manifest :=
  let isWebSupported := manifest.browser.isSome
  match manifest.extensionKind with
  | some decl =>
    let explicitKinds : List ExtensionKind :=
      match decl with
      | .many ks => ks
      | .one .ui => [.ui, .workspace]
      | .one k => [k]
    if isWebSupported ∧ .web ∉ explicitKinds then
      match decl with
      | .many ks =>
        (ks ++ [.web], { manifest with extensionKind := some (.many (ks ++ [.web])) })
      | .one _ => (explicitKinds ++ [.web], manifest)
    else (explicitKinds, manifest)
  | none =>
    if manifest.main.isSome ∧ isWebSupported then ([.workspace, .web], manifest)
    else if manifest.main.isSome then ([.workspace], manifest)
    else if isWebSupported then ([.web], manifest)
    else if isNonEmptyArray manifest.extensionPack ∨ isNonEmptyArray manifest.extensionDependencies then
      ([.workspace, .web], manifest)
    else
      let keys := match manifest.contributes with | some ks => ks | none => []
      (narrowKinds [.ui, .workspace, .web] keys, manifest)

/-! ### Dependency resolver, npm branch (`getExtensionDependencies`, Format A)

The npm branch processes the stdout of `npm list --parseable`: a list of
lines, filtered to absolute paths.  The line equal to `resolve(cwd)` is
skipped; every other line is split on `"/node_modules/"` (with
`path.sep = "/"`) and the piece at index 1 of the split — the chunk
between the first occurrence of the separator and the next one — becomes
the dependency name after backslash normalization.  A line without the
separator throws.  The version is looked up in the manifest's own
`dependencies` map and stays `undefined` when absent. -/

/-- The `${path.sep}node_modules${path.sep}` separator on POSIX. -/
def nodeModulesSep : String := "/node_modules/"

/-- Model of `path.isAbsolute` on POSIX. -/
def isAbsolutePath (s : String) : Bool := strStartsWith s "/"

/-- The ternary `manifest.dependencies != null ?
manifest.dependencies[name] : undefined`. -/
def manifestVersionLookup (manifestDeps : Option (List (String × String)))
    (name : String) : Option String :=
  match manifestDeps with
  | some m => lookupStr m name
  | none => none

/-- Parses one npm output line into a record, or the thrown error. -/
def npmDependencyOfLine (manifestDeps : Option (List (String × String)))
    (line : String) : Except String ExtensionDependency :=
  match (jsSplit nodeModulesSep line).get? 1 with
  | none => .error ("could not parse dependency: " ++ line)
  | some dependency =>
    let name := charReplace '\\' '/' dependency
    .ok { name := name
          version := manifestVersionLookup manifestDeps name
          path := line }

/-- The loop over the absolute lines: skips the resolved cwd line,
accumulates records in order, and propagates the first parse error. -/
def npmGo (manifestDeps : Option (List (String × String))) (resolvedCwd : String) :
    List String → Except String (List ExtensionDependency)
  | [] => .ok []
  | line :: rest =>
    if line = resolvedCwd then npmGo manifestDeps resolvedCwd rest
    else
      match npmDependencyOfLine manifestDeps line with
      | .error e => .error e
      | .ok dep =>
        match npmGo manifestDeps resolvedCwd rest with
        | .error e => .error e
        | .ok deps => .ok (dep :: deps)

/-- The npm (Format A) branch of `getExtensionDependencies`, as a function
of the manifest's dependency map, the resolved cwd, and the stdout lines
of `npm list` (the external process boundary). -/
def npmBranch (manifestDeps : Option (List (String × String))) (resolvedCwd : String)
    (stdoutLines : List String) : Except String (List ExtensionDependency) :=
  npmGo manifestDeps resolvedCwd (stdoutLines.filter isAbsolutePath)

/-! ### Dependency resolver, yarn branch (Format B)

`yarn list --prod --json` output is scanned for the first line matching
`/^\{"type":"tree".*$/m`; that line is parsed as JSON and its
`.data.trees` array of `YarnTreeNode`s is converted by `asYarnDependency`
(pruning nodes whose name matches `/@[\^~]/`) and flattened with a
visited-path set. -/

/-- The shape `YarnTreeNode` from `src/files.ts`: `{name, children}`. -/
inductive YarnTreeNode where
  | mk (name : String) (children : List YarnTreeNode)
deriving Repr

/-- The shape `YarnDependency` from `src/files.ts`:
`{name, path, version, children}`. -/
inductive YarnDependency where
  | mk (name : String) (path : String) (version : String) (children : List YarnDependency)
deriving Repr

/-- The installed path of a converted yarn dependency. -/
def YarnDependency.path : YarnDependency → String
  | .mk _ p _ _ => p

/-- The name/version computation of `asYarnDependency`: the node name is
split on `"@"`; a leading empty chunk marks a scoped name, and the code
shifts it and re-prefixes `"@"` (`tmp[0] = ` + `@${tmp[0]}`, which for an
empty node name interpolates JavaScript `undefined` into `"@undefined"`).
Then `name = tmp[0]` and `version = tmp[1] || ""`.  The surrounding
`try`/`catch` in the source is dead code: `split` never throws. -/
def yarnNameVersion (nodeName : String) : String × String :=
  let tmp := splitChar '@' nodeName
  let tmp2 :=
    match tmp with
    | "" :: r0 :: rrest => ("@" ++ r0) :: rrest
    | "" :: [] => ["@undefined"]
    | l => l
  (tmp2.headD "", (tmp2.get? 1).getD "")

mutual

/-- The conversion `asYarnDependency(prefix, tree, prune)` from `src/files.ts`: prunes
nodes whose name contains `@^`/`@~` (when `prune` is set, which the
source hard-codes to `true`), computes name and version from the node
name, builds the installed path `path.join(prefix, name)`, and converts
the children under `path.join(prefix, name, "node_modules")`. -/
def asYarnDependency (prune : Bool) (pre : String) : YarnTreeNode → Option YarnDependency
  | .mk nodeName children =>
    if prune ∧ hasAtRange nodeName then none
    else
      let nv := yarnNameVersion nodeName
      some (.mk nv.1 (posixJoin pre nv.1) nv.2
        (asYarnChildren prune (posixJoin3 pre nv.1 "node_modules") children))

/-- The loop over `tree.children`, keeping the non-`null` conversions in
order (this is also the shape of the top-level
`trees.map(...).filter(dep => dep != null)`). -/
def asYarnChildren (prune : Bool) (pre : String) : List YarnTreeNode → List YarnDependency
  | [] => []
  | c :: cs =>
    match asYarnDependency prune pre c with
    | some d => d :: asYarnChildren prune pre cs
    | none => asYarnChildren prune pre cs

end

mutual

/-- The yarn `flatten` closure: state is the visited-path set
(`internalDeps`) and the record list built so far (the `dependencies`
set, which only ever receives fresh objects, hence a list).  A dependency
whose path was already visited contributes nothing; otherwise its record
is appended, its path marked visited, and its children flattened. -/
def yarnFlatten (visited : List String) (acc : List ExtensionDependency) :
    YarnDependency → List String × List ExtensionDependency
  | .mk name path version children =>
    if path ∈ visited then (visited, acc)
    else yarnFlattenList (path :: visited) (acc ++ [⟨name, some version, path⟩]) children

/-- Sequential flattening of a dependency list, threading the state. -/
def yarnFlattenList (visited : List String) (acc : List ExtensionDependency) :
    List YarnDependency → List String × List ExtensionDependency
  | [] => (visited, acc)
  | d :: ds =>
    let r := yarnFlatten visited acc d
    yarnFlattenList r.1 r.2 ds

end

/-- The yarn conversion-plus-flattening pipeline applied to the parsed
`trees` array: `result = trees.map(asYarnDependency(join(cwd,
"node_modules"), ·, true)).filter(≠ null)`, then `flatten` over `result`
with one shared visited set. -/
def yarnPipeline (cwd : String) (trees : List YarnTreeNode) : List ExtensionDependency :=
  (yarnFlattenList [] [] (asYarnChildren true (posixJoin cwd "node_modules") trees)).2

/-- The regex test `/^\{"type":"tree".*$/m` on one line. -/
def yarnMatchLine (line : String) : Bool :=
  strStartsWith line "\x7b\"type\":\"tree\""

/-- The error thrown when no line of the yarn output matches. -/
def yarnListError : String := "Could not parse result of `yarn list --json`"

/-- The yarn (Format B) branch of `getExtensionDependencies`.

`RegExp.exec` returns the *first* matching line or `null`; the returned
match array has length 1 (the pattern has no capture groups), so the
source's `match.length !== 1` test can never fire and the branch fails
exactly when no line matches.  `parseTreeLine` models the external
`JSON.parse(match[0]).data.trees` step: `.error` is a thrown parse or
property-access error (which propagates out of the call), `.ok none`
means the navigation produced a non-array `trees`, and `.ok (some ts)`
an array, which yields `[]` when empty and the pipeline result
otherwise. -/
def yarnBranch (parseTreeLine : String → Except String (Option (List YarnTreeNode)))
    (cwd : String) (stdoutLines : List String) : Except String (List ExtensionDependency) :=
  match stdoutLines.find? yarnMatchLine with
  | none => .error yarnListError
  | some line =>
    match parseTreeLine line with
    | .error e => .error e
    | .ok none => .ok []
    | .ok (some trees) =>
      if trees.isEmpty then .ok []
      else .ok (yarnPipeline cwd trees)

/-! ### Dependency resolver, pnpm branch (Format C)

`pnpm list --json` output is `JSON.parse`d; a parse failure, a non-array
result, an empty array, or a first entry whose `dependencies` field
fails the `!= null && typeof === "object"` guard all yield an empty
dependency list (in JavaScript `typeof` is `"object"` for arrays too, so
an array-valued field passes the guard).  Otherwise `Object.values` of
the first entry's `dependencies` is flattened exactly like the yarn
tree, dedup key being each node's `path` field. -/

/-- A parsed JSON value, the shape `JSON.parse` can produce. -/
inductive Json where
  | null
  | bool (b : Bool)
  | num (n : Int)
  | str (s : String)
  | arr (elems : List Json)
  | obj (fields : List (String × Json))
deriving Repr

/-- Property lookup on a parsed JSON object. -/
def jsonLookup : List (String × Json) → String → Option Json
  | [], _ => none
  | (k, v) :: rest, key => if k = key then some v else jsonLookup rest key

/-- The shape `PnpmDependency` from `src/files.ts`:
`{from, version, resolved, path, dependencies}` (`from` is a Lean keyword,
hence `fromName`). -/
inductive PnpmDependency where
  | mk (fromName : String) (version : String) (resolved : String) (path : String)
      (dependencies : List (String × PnpmDependency))
deriving Repr

/-- The installed path of a pnpm dependency node. -/
def PnpmDependency.path : PnpmDependency → String
  | .mk _ _ _ p _ => p

/-- A string-valued field of a JSON object, defaulting to `""`. -/
def jsonStrField (fields : List (String × Json)) (key : String) : String :=
  match jsonLookup fields key with
  | some (.str s) => s
  | _ => ""

/-- The `Object.values` of a string enumerates its single-character
strings; each flattens to a node whose every property access yields
`undefined` (decoded under the `undefined ↦ ""` convention below, the
same value `decodePnpm` gives any non-object).  The key component only
adapts to the keyed-list interface of `pnpmFlattenList`, which discards
it just as `Object.values` discards the indices. -/
def decodePnpmStrDeps (i : Nat) : List Char → List (String × PnpmDependency)
  | [] => []
  | _ :: rest => (toString i, PnpmDependency.mk "" "" "" "" []) :: decodePnpmStrDeps (i + 1) rest

mutual

/-- Reads one `PnpmDependency` out of a parsed JSON value.  The JavaScript
code walks the raw JSON under a type assertion, so every property access
can meet a non-string or missing value; the decoder fixes the convention
`undefined`/non-string `↦ ""` for the four string fields (well-formed
`pnpm list` output has string fields, and the flatten only ever compares
these values among themselves, so the convention is a consistent
renaming). -/
def decodePnpm : Json → PnpmDependency
  | .obj fields =>
    .mk (jsonStrField fields "from") (jsonStrField fields "version")
      (jsonStrField fields "resolved") (jsonStrField fields "path")
      (decodePnpmDepsField fields)
  | _ => .mk "" "" "" "" []

/-- Finds the `dependencies` field and decodes the children the source's
`if (dep.dependencies) { for (const child of Object.values(...)) }`
traverses: for a truthy value, `Object.values` of an object is its
values, of an array its elements, of a string its single-character
strings, and of a number or `true` the empty list; falsy values
(`undefined`, `null`, `false`, `0`, `""`) are skipped, which for `""`
coincides with traversing no values. -/
def decodePnpmDepsField : List (String × Json) → List (String × PnpmDependency)
  | [] => []
  | (k, v) :: rest =>
    if k = "dependencies" then
      match v with
      | .obj dfields => decodePnpmDeps dfields
      | .arr elems => decodePnpmArrDeps 0 elems
      | .str s => decodePnpmStrDeps 0 s.data
      | _ => []
    else decodePnpmDepsField rest

/-- Decodes the entries of a `dependencies` object in order
(`Object.values` preserves insertion order). -/
def decodePnpmDeps : List (String × Json) → List (String × PnpmDependency)
  | [] => []
  | (k, v) :: rest => (k, decodePnpm v) :: decodePnpmDeps rest

/-- Decodes the elements of an array-valued `dependencies` field —
`typeof [] === "object"`, so `Object.values` enumerates its elements
(the index keys are adapters the flatten discards). -/
def decodePnpmArrDeps (i : Nat) : List Json → List (String × PnpmDependency)
  | [] => []
  | v :: rest => (toString i, decodePnpm v) :: decodePnpmArrDeps (i + 1) rest

end

mutual

/-- The pnpm `flatten` closure, structurally identical to the yarn one:
skip visited paths, append the record (`name` is the node's `from`
field), mark the path visited, recurse into `Object.values
(dep.dependencies)`. -/
def pnpmFlatten (visited : List String) (acc : List ExtensionDependency) :
    PnpmDependency → List String × List ExtensionDependency
  | .mk fromName version _ path dependencies =>
    if path ∈ visited then (visited, acc)
    else pnpmFlattenList (path :: visited) (acc ++ [⟨fromName, some version, path⟩]) dependencies

/-- Sequential flattening over the values of a `dependencies` map. -/
def pnpmFlattenList (visited : List String) (acc : List ExtensionDependency) :
    List (String × PnpmDependency) → List String × List ExtensionDependency
  | [] => (visited, acc)
  | (_, d) :: ds =>
    let r := pnpmFlatten visited acc d
    pnpmFlattenList r.1 r.2 ds

end

/-- The pnpm flattening pipeline over the first entry's `dependencies`
values, with one shared visited set. -/
def pnpmPipeline (entryDeps : List (String × PnpmDependency)) : List ExtensionDependency :=
  (pnpmFlattenList [] [] entryDeps).2

/-- The pnpm (Format C) branch of `getExtensionDependencies`, as a
function of the `JSON.parse(stdout)` outcome (`none` models a thrown
parse error, caught by the source and turned into `[]`).  The guard
`entry.dependencies == null || typeof entry.dependencies !== "object"`
degrades to `[]` on a missing, `null`, or primitive `dependencies`
field, but `typeof [] === "object"`, so an array-valued field passes the
guard and `Object.values` of its elements is flattened; a first entry
that is itself an array also has `typeof "object"` but no
`dependencies` property, hence degrades. -/
def pnpmBranch (parsed : Option Json) : Except String (List ExtensionDependency) :=
  match parsed with
  | none => .ok []
  | some (.arr []) => .ok []
  | some (.arr (entry :: _)) =>
    match entry with
    | .obj fields =>
      match jsonLookup fields "dependencies" with
      | some (.obj depFields) => .ok (pnpmPipeline (decodePnpmDeps depFields))
      | some (.arr elems) => .ok (pnpmPipeline (decodePnpmArrDeps 0 elems))
      | _ => .ok []
    | _ => .ok []
  | some _ => .ok []

/-- Does the first pnpm entry pass the guard `entry.dependencies != null
&& typeof entry.dependencies === "object"`?  In JavaScript `typeof`
yields `"object"` for JSON objects, arrays and `null`, and `null` is
already excluded by the `== null` half, so the guard passes exactly on
object- and array-valued `dependencies` fields. -/
def pnpmHasDepsObj : Json → Bool
  | .obj fields =>
    match jsonLookup fields "dependencies" with
    | some (.obj _) => true
    | some (.arr _) => true
    | _ => false
  | _ => false

/-! ### Fueled Format B pipeline (termination witness for the yarn branch)

`JSON.parse` can only produce finite trees, so both the recursive
conversion and the flattening of the yarn branch terminate; the fueled
variants below make that a theorem: with fuel equal to an explicitly
computed size bound, the fueled pipeline returns the pipeline's result
instead of running out. -/

mutual

/-- Node count measure of a yarn tree (at least 1). -/
def ynodeSize : YarnTreeNode → Nat
  | .mk _ children => 1 + ynodeSizeList children

/-- Node count measure of a yarn forest (at least 1). -/
def ynodeSizeList : List YarnTreeNode → Nat
  | [] => 1
  | t :: ts => 1 + ynodeSize t + ynodeSizeList ts

end

mutual

/-- Node count measure of a converted yarn dependency. -/
def ydepSize : YarnDependency → Nat
  | .mk _ _ _ children => 1 + ydepSizeList children

/-- Node count measure of a converted yarn dependency list. -/
def ydepSizeList : List YarnDependency → Nat
  | [] => 1
  | d :: ds => 1 + ydepSize d + ydepSizeList ds

end

mutual

/-- Variant of `asYarnDependency` with step-counting fuel; `none` is fuel
exhaustion, `some r` the conversion outcome `r`. -/
def asYarnDependencyFuel (prune : Bool) : Nat → String → YarnTreeNode → Option (Option YarnDependency)
  | 0, _, _ => none
  | fuel + 1, pre, .mk nodeName children =>
    if prune ∧ hasAtRange nodeName then some none
    else
      let nv := yarnNameVersion nodeName
      match asYarnChildrenFuel prune fuel (posixJoin3 pre nv.1 "node_modules") children with
      | none => none
      | some cs => some (some (.mk nv.1 (posixJoin pre nv.1) nv.2 cs))

/-- Variant of `asYarnChildren` with step-counting fuel. -/
def asYarnChildrenFuel (prune : Bool) : Nat → String → List YarnTreeNode → Option (List YarnDependency)
  | 0, _, _ => none
  | _ + 1, _, [] => some []
  | fuel + 1, pre, c :: cs =>
    match asYarnDependencyFuel prune fuel pre c with
    | none => none
    | some od =>
      match asYarnChildrenFuel prune fuel pre cs with
      | none => none
      | some ds => some (match od with | some d => d :: ds | none => ds)

end

mutual

/-- Variant of `yarnFlatten` with step-counting fuel. -/
def yarnFlattenFuel : Nat → List String → List ExtensionDependency →
    YarnDependency → Option (List String × List ExtensionDependency)
  | 0, _, _, _ => none
  | fuel + 1, visited, acc, .mk name path version children =>
    if path ∈ visited then some (visited, acc)
    else yarnFlattenListFuel fuel (path :: visited) (acc ++ [⟨name, some version, path⟩]) children

/-- Variant of `yarnFlattenList` with step-counting fuel. -/
def yarnFlattenListFuel : Nat → List String → List ExtensionDependency →
    List YarnDependency → Option (List String × List ExtensionDependency)
  | 0, _, _, _ => none
  | _ + 1, visited, acc, [] => some (visited, acc)
  | fuel + 1, visited, acc, d :: ds =>
    match yarnFlattenFuel fuel visited acc d with
    | none => none
    | some r => yarnFlattenListFuel fuel r.1 r.2 ds

end

/-- The whole Format B pipeline (conversion then flattening) run on a
step budget. -/
def yarnPipelineFuel (fuel : Nat) (cwd : String) (trees : List YarnTreeNode) :
    Option (List ExtensionDependency) :=
  match asYarnChildrenFuel true fuel (posixJoin cwd "node_modules") trees with
  | none => none
  | some deps =>
    match yarnFlattenListFuel fuel [] [] deps with
    | none => none
    | some r => some r.2

/-- An explicit step budget sufficient for the Format B pipeline on the
given input. -/
def yarnPipelineBound (cwd : String) (trees : List YarnTreeNode) : Nat :=
  ynodeSizeList trees +
    ydepSizeList (asYarnChildren true (posixJoin cwd "node_modules") trees)

/-! ### File collector (`collect` from `src/files.ts`)

The glob walk (external `tinyglobby`, invoked with the built-in
`VSCE_DEFAULT_IGNORE` denylist plus the forced includes `!package.json`
and `!<readme>`) is modelled by its output `globbed`, the list of
relative paths it enumerated; the compiled ignore matcher built from
`.gitignore` and the `.vscodeignore`-style file is modelled by the
predicate `ig` (`ig.ignores`). -/

/-- The collector `collect(manifest, options)` after the glob call: every enumerated
file is kept only if the user ignore matcher does not match it, then
mapped to a local `VsixFile`; dependency entries are appended afterwards,
with `localPath = dep.path.replace(process.cwd() + path.sep, "")`. -/
def collect (globbed : List String) (ig : String → Bool)
    (dependencies : List ExtensionDependency) (cwd processCwd : String) : List VsixFile :=
  let filteredFiles := globbed.filter (fun file => !ig file)
  let files := filteredFiles.map
    (fun file => VsixFile.localFile (posixJoin "extension/" file) (posixJoin cwd file))
  files ++ dependencies.map
    (fun dep => VsixFile.localFile (posixJoin "extension/node_modules" dep.name)
      (jsReplaceFirst dep.path (processCwd ++ "/") ""))

/-! ### Asset locator (`processFiles`, `hasExtensionFile`) -/

/-- The search `hasExtensionFile(files, fileNames)`: for each candidate name in
order (skipping `undefined` entries), the first file whose archive path
ends with the name wins; `some path` models `{found: true, path}`. -/
def hasExtensionFile (files : List VsixFile) : List (Option String) → Option String
  | [] => none
  | none :: rest => hasExtensionFile files rest
  | some fileName :: rest =>
    match files.find? (fun f => strEndsWith f.path fileName) with
    | some f => some f.path
    | none => hasExtensionFile files rest

/-- The license candidate names, searched in order. -/
def licenseCandidates : List (Option String) :=
  [some "LICENSE", some "LICENSE.md", some "LICENSE.txt", some "LICENSE.markdown"]

/-- The result record `ProcessedFiles` from `src/files.ts`; assets are (type, path) pairs. -/
structure ProcessedFiles where
  assets : List (String × String)
  icon : Option String
  license : Option String
deriving DecidableEq, Repr

/-- Builds the `ProcessedFiles` result from the five located assets, in
the source's push order (license, icon, readme, changelog,
translations). -/
def mkProcessed (license icon readme changelog translations : Option String) : ProcessedFiles :=
  { assets :=
      (match license with
        | some l => [("Microsoft.VisualStudio.Services.Content.License", l)]
        | none => [])
      ++ (match icon with
        | some i => [("Microsoft.VisualStudio.Services.Icons.Default", i)]
        | none => [])
      ++ (match readme with
        | some r => [("Microsoft.VisualStudio.Services.Content.Details", r)]
        | none => [])
      ++ (match changelog with
        | some c => [("Microsoft.VisualStudio.Services.Content.Changelog", c)]
        | none => [])
      ++ (match translations with
        | some t => [("Microsoft.VisualStudio.Code.Translation.en", t)]
        | none => [])
    icon := icon
    license := license }

/-- Model of `Array.prototype.findIndex`, returning the index and the found
element together (`none` models `-1`). -/
def findIndexAux (pred : VsixFile → Bool) : List VsixFile → Option (Nat × VsixFile)
  | [] => none
  | f :: rest =>
    if pred f then some (0, f)
    else (findIndexAux pred rest).map (fun r => (r.1 + 1, r.2))

/-- The asset locator `processFiles(options)` from `src/files.ts`.  All five asset
searches run against the incoming file list; when the located license
path has no extension, the matching entry of the caller's `files` array
is overwritten in place with a copy whose path gains `".md"` — modelled
by returning the updated list alongside the result.  The `findIndex ===
-1` throw is kept (it is unreachable because the located path comes from
the list itself). -/
def processFiles (manifest : Manifest) (readme : Option String) (files : List VsixFile) :
    Except String (ProcessedFiles × List VsixFile) :=
  let hasLicenseFile := hasExtensionFile files licenseCandidates
  let hasIconFile := hasExtensionFile files [manifest.icon]
  let hasReadmeFile := hasExtensionFile files [readme, some "README.md"]
  let hasChangelogFile := hasExtensionFile files
    [some "CHANGELOG.md", some "CHANGELOG.markdown", some "CHANGELOG.txt"]
  let hasTranslationsFiles := hasExtensionFile files [some "package.nls.json"]
  match hasLicenseFile with
  | none =>
    .ok (mkProcessed none hasIconFile hasReadmeFile hasChangelogFile hasTranslationsFiles, files)
  | some p =>
    if extname p = "" then
      match findIndexAux (fun f => f.path = p) files with
      | none => .error ("could not find license file: " ++ p)
      | some ie =>
        .ok (mkProcessed (some (p ++ ".md")) hasIconFile hasReadmeFile hasChangelogFile
              hasTranslationsFiles,
          files.set ie.1 (ie.2.withPath (p ++ ".md")))
    else
      .ok (mkProcessed (some p) hasIconFile hasReadmeFile hasChangelogFile
            hasTranslationsFiles, files)

/-! ### Content types (`getContentTypesForFiles`) -/

/-- The built-in `DEFAULT_MIME_TYPES` table. -/
def defaultMimeTypes : List (String × String) :=
  [(".json", "application/json"),
   (".vsixmanifest", "text/xml"),
   (".md", "text/markdown"),
   (".png", "image/png"),
   (".txt", "text/plain"),
   (".js", "application/javascript"),
   (".yml", "text/yaml"),
   (".html", "text/html"),
   (".markdown", "text/markdown"),
   (".css", "text/css")]

/-- JS object assignment `contentTypes[ext] = ct`: overwrite in place if
the key exists, else append. -/
def recordSet (m : List (String × String)) (k v : String) : List (String × String) :=
  if m.any (fun kv => kv.1 = k) then
    m.map (fun kv => if kv.1 = k then (k, v) else kv)
  else m ++ [(k, v)]

/-- The loop of `getContentTypesForFiles`: per file, the lowercased
`path.extname` is resolved against the built-in table first and the
external `mime.getType` lookup second; an unresolvable extension throws
with the file's path.  The source's `if (ext == null) continue` guard is
dead code — `path.extname` always returns a string, so a file without an
extension reaches the lookups with `ext = ""` rather than being
skipped. -/
def contentTypesGo (mimeLookup : String → Option String) :
    List VsixFile → List (String × String) → Except String (List (String × String))
  | [], acc => .ok acc
  | f :: rest, acc =>
    let ext := strToLower (extname f.path)
    match lookupStr defaultMimeTypes ext with
    | some ct => contentTypesGo mimeLookup rest (recordSet acc ext ct)
    | none =>
      match mimeLookup ext with
      | none => .error ("could not determine content type for file: " ++ f.path)
      | some ct => contentTypesGo mimeLookup rest (recordSet acc ext ct)

/-- The map builder `getContentTypesForFiles(files)`, parameterized by the external
`mime.getType` lookup; returns the content-type map (the derived XML
string rendering of that map is presentation-only and not modelled). -/
def getContentTypesForFiles (mimeLookup : String → Option String) (files : List VsixFile) :
    Except String (List (String × String)) :=
  contentTypesGo mimeLookup files []

/-! ## Helper lemmas -/

/-- Every entry of the contribution-point lookup table allows the
`workspace` kind. -/
theorem contributionPoints_workspace_mem (key : String) (ks : List ExtensionKind)
    (h : contributionPointsForExtensionKind key = some ks) : ExtensionKind.workspace ∈ ks := by
  unfold contributionPointsForExtensionKind at h
  repeat' split at h
  all_goals first
  | exact Option.noConfusion h
  | (cases h; decide)

/-- Narrowing by table entries never removes `workspace`. -/
theorem narrowKinds_workspace_mem (keys : List String) :
    ∀ res : List ExtensionKind, ExtensionKind.workspace ∈ res →
      ExtensionKind.workspace ∈ narrowKinds res keys := by
  induction keys with
  | nil => intro res h; simpa [narrowKinds] using h
  | cons key rest ih =>
    intro res h
    unfold narrowKinds
    cases htab : contributionPointsForExtensionKind key with
    | none => exact ih res h
    | some supported =>
      refine ih _ ?_
      refine List.mem_filter.mpr ⟨h, ?_⟩
      simpa using contributionPoints_workspace_mem key supported htab

/-- Keys outside the lookup table impose no narrowing. -/
theorem narrowKinds_unknown (keys : List String)
    (h : ∀ key ∈ keys, contributionPointsForExtensionKind key = none) :
    ∀ res : List ExtensionKind, narrowKinds res keys = res := by
  induction keys with
  | nil => intro res; rfl
  | cons key rest ih =>
    intro res
    unfold narrowKinds
    rw [h key (by simp)]
    exact ih (fun k hk => h k (by simp [hk])) res

/-- The key list of the manifest's `contributes` object. -/
def manifestContributesKeys (m : Manifest) : List String :=
  match m.contributes with
  | some ks => ks
  | none => []

/-! ## C4: non-emptiness of the classification -/

/-- A manifest that explicitly declares `extensionKind: []` and has no
browser entry point. -/
def c4Manifest : Manifest := { extensionKind := some (.many []) }

/-- C4 counterexample: contrary to the claim, a manifest that declares
`extensionKind` as an empty array (and has no browser entry point) makes
`transformExtensionKind` return the empty set — rule 1 returns the
declared array verbatim and never reaches rule 6's universal starting
set. -/
theorem transformExtensionKind_empty_output : (transformExtensionKind c4Manifest).1 = [] := by
  rfl

/-- C4 (amended): for every manifest except one declaring
`extensionKind` as an empty array while lacking a browser entry point,
`transformExtensionKind` returns a non-empty kind list; in the declared
empty-array case with a browser entry point the result is `["web"]`, so
the only empty output arises from `extensionKind: []` without
`browser`. -/
theorem transformExtensionKind_nonempty (m : Manifest)
    (h : ¬(m.extensionKind = some (.many []) ∧ m.browser = none)) :
    (transformExtensionKind m).1 ≠ [] := by
  obtain ⟨mn, br, ek, ep, ed, co, dp, ic⟩ := m
  simp only [Manifest.extensionKind, Manifest.browser] at h
  simp only [transformExtensionKind]
  cases ek with
  | some decl =>
    cases decl with
    | many ks =>
      cases ks with
      | nil =>
        have hb : br ≠ none := fun hb => h ⟨rfl, hb⟩
        have hbs : br.isSome = true := Option.isSome_iff_ne_none.mpr hb
        simp [hbs]
      | cons k ks' =>
        dsimp only
        split <;> simp
    | one k =>
      cases k <;> (dsimp only; split <;> simp)
  | none =>
    by_cases hm : mn.isSome = true <;>
      by_cases hb : br.isSome = true <;>
        simp [hm, hb]
    by_cases hp : (isNonEmptyArray ep ∨ isNonEmptyArray ed) <;>
      simp [hp]
    exact List.ne_nil_of_mem
      (narrowKinds_workspace_mem _ [ExtensionKind.ui, .workspace, .web] (by decide))

/-- C4 witness: a manifest with only unrecognized and recognized
contribution keys satisfies the amended hypothesis and classifies to a
non-empty set. -/
theorem transformExtensionKind_nonempty_witness :
    ¬(({ contributes := some ["localizations", "debuggers"] } : Manifest).extensionKind =
        some (.many []) ∧
      ({ contributes := some ["localizations", "debuggers"] } : Manifest).browser = none) ∧
    (transformExtensionKind { contributes := some ["localizations", "debuggers"] }).1 ≠ [] :=
  ⟨by decide, transformExtensionKind_nonempty _ (by decide)⟩

/-! ## C5: purity of the classifier -/

/-- A manifest declaring `extensionKind: ["workspace"]` together with a
browser entry point. -/
def c5Manifest : Manifest :=
  { extensionKind := some (.many [.workspace]), browser := some "dist/web.js" }

/-- C5 counterexample: contrary to the claim, `transformExtensionKind`
is not free of effects on its input — when `extensionKind` is declared
as an array and a browser entry point is present, `explicitKinds`
aliases the manifest's own array and `push("web")` mutates it, leaving
the caller's manifest changed. -/
theorem transformExtensionKind_mutates :
    (transformExtensionKind c5Manifest).2 ≠ c5Manifest ∧
    (transformExtensionKind c5Manifest).2.extensionKind =
      some (.many [.workspace, .web]) := by
  constructor
  · intro h
    have := congrArg Manifest.extensionKind h
    simp [c5Manifest, transformExtensionKind] at this
  · rfl

/-- C5 (amended): `transformExtensionKind` is deterministic in the
manifest value, but not effect-free: exactly when `extensionKind` is
declared as an array missing `"web"` and a browser entry point is
present, the manifest's own `extensionKind` array gains a trailing
`"web"` (shared-reference mutation); in every other case the manifest is
left unchanged. -/
theorem transformExtensionKind_mutation_spec :
    (∀ (m : Manifest) (ks : List ExtensionKind),
      m.extensionKind = some (.many ks) → m.browser.isSome = true →
      ExtensionKind.web ∉ ks →
      (transformExtensionKind m).2 =
          { m with extensionKind := some (.many (ks ++ [.web])) } ∧
        (transformExtensionKind m).1 = ks ++ [.web]) ∧
    (∀ m : Manifest,
      (∀ ks : List ExtensionKind, m.extensionKind = some (.many ks) →
        m.browser.isSome = true → ExtensionKind.web ∈ ks) →
      (transformExtensionKind m).2 = m) := by
  constructor
  · intro m ks hek hb hw
    unfold transformExtensionKind
    rw [hek]
    simp [hb, hw]
  · intro m h
    unfold transformExtensionKind
    cases hek : m.extensionKind with
    | some decl =>
      cases decl with
      | many ks =>
        by_cases hb : m.browser.isSome = true
        · simp [hb, h ks hek hb]
        · simp [hb]
      | one k =>
        by_cases hcond : m.browser.isSome = true ∧
            ExtensionKind.web ∉ (match ExtensionKindDecl.one k with
              | .many ks => ks
              | .one .ui => [ExtensionKind.ui, .workspace]
              | .one k => [k])
        all_goals simp [hcond]
    | none =>
      by_cases hm : m.main.isSome = true <;>
        by_cases hb : m.browser.isSome = true <;>
          simp [hm, hb]
      by_cases hp : (isNonEmptyArray m.extensionPack ∨
          isNonEmptyArray m.extensionDependencies) <;>
        simp [hp]

/-- C5 witness: a manifest declaring `extensionKind: ["ui"]` with a
browser entry point is mutated to `["ui", "web"]`, which the amended
theorem predicts. -/
theorem transformExtensionKind_mutation_spec_witness :
    (transformExtensionKind
        { extensionKind := some (.many [.ui]), browser := some "w.js" }).2 =
      { ({ extensionKind := some (.many [.ui]), browser := some "w.js" } : Manifest) with
        extensionKind := some (.many [.ui, .web]) } ∧
    (transformExtensionKind
        { extensionKind := some (.many [.ui]), browser := some "w.js" }).1 = [.ui, .web] :=
  transformExtensionKind_mutation_spec.1
    { extensionKind := some (.many [.ui]), browser := some "w.js" } [.ui] rfl rfl (by decide)

/-! ## C6: the universal set survives unrecognized contributions -/

/-- C6: a manifest with no `extensionKind`, no `main`, no `browser`, no
non-empty `extensionPack` or `extensionDependencies`, and only
contribution keys outside the lookup table classifies to exactly
`["ui", "workspace", "web"]`. -/
theorem transformExtensionKind_universal (m : Manifest)
    (h1 : m.extensionKind = none) (h2 : m.main = none) (h3 : m.browser = none)
    (h4 : isNonEmptyArray m.extensionPack = false)
    (h5 : isNonEmptyArray m.extensionDependencies = false)
    (h6 : ∀ key ∈ manifestContributesKeys m, contributionPointsForExtensionKind key = none) :
    (transformExtensionKind m).1 = [.ui, .workspace, .web] := by
  unfold transformExtensionKind
  rw [h1, h2, h3]
  simp [h4, h5]
  have := narrowKinds_unknown (manifestContributesKeys m) h6
    [ExtensionKind.ui, .workspace, .web]
  cases hc : m.contributes with
  | none => rfl
  | some ks =>
    have hks : manifestContributesKeys m = ks := by simp [manifestContributesKeys, hc]
    rw [hks] at this
    simpa using this

/-- C6 witness: a manifest contributing only the unrecognized keys
`colors` and `commands` classifies to the universal set. -/
theorem transformExtensionKind_universal_witness :
    (∀ key ∈ manifestContributesKeys { contributes := some ["colors", "commands"] },
      contributionPointsForExtensionKind key = none) ∧
    (transformExtensionKind { contributes := some ["colors", "commands"] }).1 =
      [.ui, .workspace, .web] :=
  ⟨by decide, transformExtensionKind_universal _ rfl rfl rfl rfl rfl (by decide)⟩

/-! ## C2: the npm (Format A) parsing rule -/

/-- Characterization of a successfully parsed npm line: the record keeps
the line as its path, its name is the backslash-normalized chunk at index
1 of the `"/node_modules/"` split, and its version is the manifest-map
lookup of that name. -/
theorem npmDependencyOfLine_ok (manifestDeps : Option (List (String × String)))
    (line : String) (dep : ExtensionDependency)
    (h : npmDependencyOfLine manifestDeps line = .ok dep) :
    dep.path = line ∧
      (∃ d, (jsSplit nodeModulesSep line).get? 1 = some d ∧
        dep.name = charReplace '\\' '/' d) ∧
      dep.version = manifestVersionLookup manifestDeps dep.name := by
  unfold npmDependencyOfLine at h
  cases hd : (jsSplit nodeModulesSep line).get? 1 with
  | none => rw [hd] at h; exact Except.noConfusion h
  | some d =>
    rw [hd] at h
    cases h
    exact ⟨rfl, ⟨d, rfl, rfl⟩, rfl⟩

/-- Characterization of a successful run of the npm line loop. -/
theorem npmGo_ok (manifestDeps : Option (List (String × String))) (resolvedCwd : String) :
    ∀ (lines : List String) (out : List ExtensionDependency),
      npmGo manifestDeps resolvedCwd lines = .ok out →
      out.map ExtensionDependency.path = lines.filter (fun l => l ≠ resolvedCwd) ∧
      ∀ r ∈ out,
        (∃ d, (jsSplit nodeModulesSep r.path).get? 1 = some d ∧
          r.name = charReplace '\\' '/' d) ∧
        r.version = manifestVersionLookup manifestDeps r.name := by
  intro lines
  induction lines with
  | nil =>
    intro out h
    cases h
    simp
  | cons line rest ih =>
    intro out h
    unfold npmGo at h
    by_cases hcwd : line = resolvedCwd
    · rw [if_pos hcwd] at h
      obtain ⟨h1, h2⟩ := ih out h
      refine ⟨?_, h2⟩
      rw [List.filter_cons_of_neg (by simp [hcwd])]
      exact h1
    · rw [if_neg hcwd] at h
      cases hline : npmDependencyOfLine manifestDeps line with
      | error e => rw [hline] at h; exact Except.noConfusion h
      | ok dep =>
        rw [hline] at h
        cases hrest : npmGo manifestDeps resolvedCwd rest with
        | error e => rw [hrest] at h; exact Except.noConfusion h
        | ok deps =>
          rw [hrest] at h
          cases h
          obtain ⟨hpath, hname, hver⟩ := npmDependencyOfLine_ok manifestDeps line dep hline
          obtain ⟨h1, h2⟩ := ih deps hrest
          constructor
          · rw [List.filter_cons_of_pos (by simp [hcwd])]
            simp [hpath, h1]
          · intro r hr
            rcases List.mem_cons.mp hr with rfl | hr
            · exact ⟨hpath ▸ hname, hver⟩
            · exact h2 r hr

/-- C2 counterexample: on the nested install line
`/r/node_modules/a/node_modules/b` the npm branch names the record `"a"`
— `split(...)[1]` is the chunk after the *first* `node_modules`
separator — while the claim's last-occurrence rule predicts `"b"`. -/
theorem npmBranch_nested_names_first :
    npmBranch none "/r" ["/r", "/r/node_modules/a/node_modules/b"] =
      .ok [{ name := "a", version := none, path := "/r/node_modules/a/node_modules/b" }] ∧
    ("a" : String) ≠ "b" :=
  ⟨by rfl, by decide⟩

/-- C2 (amended): the npm branch skips exactly the line equal to the
resolved cwd; every other absolute line yields one record, in order,
whose path is the line, whose name is the backslash-normalized chunk at
index 1 of the `"/node_modules/"` split — i.e. the piece after the
*first* separator occurrence, so `<root>/node_modules/a/node_modules/b`
is named `"a"` and a scoped `@scope/pkg` stays whole — and whose version
is the manifest-map lookup of that name, `none` when absent. -/
theorem npmBranch_spec :
    (∀ (manifestDeps : Option (List (String × String))) (resolvedCwd : String)
      (stdoutLines : List String) (out : List ExtensionDependency),
      npmBranch manifestDeps resolvedCwd stdoutLines = .ok out →
      out.map ExtensionDependency.path =
        (stdoutLines.filter isAbsolutePath).filter (fun l => l ≠ resolvedCwd) ∧
      ∀ r ∈ out,
        (∃ d, (jsSplit nodeModulesSep r.path).get? 1 = some d ∧
          r.name = charReplace '\\' '/' d) ∧
        r.version = manifestVersionLookup manifestDeps r.name) ∧
    npmBranch (some [("b", "1.2.3")]) "/r" ["/r", "/r/node_modules/a/node_modules/b"] =
      .ok [{ name := "a", version := none, path := "/r/node_modules/a/node_modules/b" }] ∧
    npmBranch none "/r" ["/r/node_modules/@scope/pkg"] =
      .ok [{ name := "@scope/pkg", version := none, path := "/r/node_modules/@scope/pkg" }] := by
  refine ⟨?_, by rfl, by rfl⟩
  intro manifestDeps resolvedCwd stdoutLines out h
  exact npmGo_ok manifestDeps resolvedCwd (stdoutLines.filter isAbsolutePath) out h

/-- C2 witness: a concrete run through the amended specification, with a
direct dependency whose version resolves from the manifest map. -/
theorem npmBranch_spec_witness :
    npmBranch (some [("a", "2.0.0")]) "/r" ["/r", "/r/node_modules/a", "npm warning"] =
      .ok [{ name := "a", version := some "2.0.0", path := "/r/node_modules/a" }] ∧
    ([{ name := "a", version := some "2.0.0", path := "/r/node_modules/a" }].map
        ExtensionDependency.path =
      ((["/r", "/r/node_modules/a", "npm warning"].filter isAbsolutePath).filter
        (fun l => l ≠ "/r"))) :=
  ⟨by rfl,
    (npmBranch_spec.1 (some [("a", "2.0.0")]) "/r" ["/r", "/r/node_modules/a", "npm warning"]
      [{ name := "a", version := some "2.0.0", path := "/r/node_modules/a" }] (by rfl)).1⟩

/-! ## C7: parse-failure asymmetry between Format B and Format C -/

/-- A stdout line matching the yarn tree pattern, whose JSON payload is
one tree node named `a@1.0.0`. -/
def c7Line : String :=
  "\x7b\"type\":\"tree\",\"data\":\x7b\"trees\":[\x7b\"name\":\"a@1.0.0\",\"children\":[]\x7d]\x7d\x7d"

/-- The `JSON.parse(line).data.trees` oracle for `c7Line`, agreeing with
what the real JSON parser produces on that line. -/
def c7Parse : String → Except String (Option (List YarnTreeNode)) :=
  fun s => if s = c7Line then .ok (some [.mk "a@1.0.0" []]) else .error "unexpected token"

/-- C7 counterexample: contrary to the claim, more than one matching
line does not make the yarn branch fail — `RegExp.exec` returns only the
first match and the source's `match.length !== 1` test never fires, so a
stdout with two matching tree lines parses the first and succeeds with a
record. -/
theorem yarnBranch_multi_match_succeeds :
    (([c7Line, c7Line].filter yarnMatchLine).length = 2) ∧
    yarnBranch c7Parse "/r" [c7Line, c7Line] =
      .ok [{ name := "a", version := some "1.0.0", path := "/r/node_modules/a" }] :=
  ⟨by decide, by rfl⟩

/-- C7 (amended): the failure asymmetry, with the yarn multiplicity
condition corrected: the yarn branch fails (with its descriptive error,
returning no records) exactly on stdout with *no* line matching the tree
pattern — when several lines match, the first is used — while the pnpm
branch succeeds with an empty list on an unparseable stdout, a non-array
JSON value, an empty array, and a first entry whose `dependencies` field
fails the `!= null && typeof === "object"` guard (missing, `null`, or a
primitive).  An array-valued `dependencies` field is *not* a degrade
case: `typeof [] === "object"` passes the guard and its elements are
flattened, as the final concrete conjunct shows — the stdout
`[{"dependencies":["a"]}]` yields one record, each field the decode of
JavaScript `undefined`. -/
theorem parse_failure_asymmetry :
    (∀ (parseTreeLine : String → Except String (Option (List YarnTreeNode)))
      (cwd : String) (stdoutLines : List String),
      stdoutLines.find? yarnMatchLine = none →
      yarnBranch parseTreeLine cwd stdoutLines = .error yarnListError) ∧
    pnpmBranch none = .ok [] ∧
    (∀ j : Json, (∀ elems : List Json, j ≠ .arr elems) → pnpmBranch (some j) = .ok []) ∧
    pnpmBranch (some (.arr [])) = .ok [] ∧
    (∀ (entry : Json) (rest : List Json), pnpmHasDepsObj entry = false →
      pnpmBranch (some (.arr (entry :: rest))) = .ok []) ∧
    pnpmBranch (some (.arr [.obj [("dependencies", .arr [.str "a"])]])) =
      .ok [{ name := "", version := some "", path := "" }] := by
  refine ⟨?_, rfl, ?_, rfl, ?_, by rfl⟩
  · intro parseTreeLine cwd stdoutLines hfind
    unfold yarnBranch
    rw [hfind]
  · intro j hj
    unfold pnpmBranch
    cases j with
    | arr elems => exact absurd rfl (hj elems)
    | null => rfl
    | bool b => rfl
    | num n => rfl
    | str s => rfl
    | obj fields => rfl
  · intro entry rest hdeps
    unfold pnpmBranch
    cases entry with
    | obj fields =>
      dsimp only
      unfold pnpmHasDepsObj at hdeps
      dsimp only at hdeps
      cases hfld : jsonLookup fields "dependencies" with
      | none => rfl
      | some v =>
        rw [hfld] at hdeps
        cases v with
        | obj dfields => simp at hdeps
        | null => rfl
        | bool b => rfl
        | num n => rfl
        | str s => rfl
        | arr elems => simp at hdeps
    | null => rfl
    | bool b => rfl
    | num n => rfl
    | str s => rfl
    | arr elems => rfl

/-- C7 witness: a yarn stdout with only diagnostic lines fails with the
descriptive error, and a pnpm stdout parsing to a bare string degrades
to zero dependencies. -/
theorem parse_failure_asymmetry_witness :
    ((["yarn install v1.22.19", "warning ..."].find? yarnMatchLine = none) ∧
      yarnBranch (fun _ => .error "unused") "/r" ["yarn install v1.22.19", "warning ..."] =
        .error yarnListError) ∧
    pnpmBranch (some (.str "ERR")) = .ok [] :=
  ⟨⟨by rfl,
      parse_failure_asymmetry.1 (fun _ => .error "unused") "/r"
        ["yarn install v1.22.19", "warning ..."] (by rfl)⟩,
    parse_failure_asymmetry.2.2.1 (.str "ERR") (fun elems h => Json.noConfusion h)⟩

/-! ## C1: the dedup invariant of the flattening -/

/-- The invariant threaded through the flattening: the record paths
collected so far are pairwise distinct, and every one of them is already
in the visited set. -/
def FlattenInv (visited : List String) (acc : List ExtensionDependency) : Prop :=
  (acc.map ExtensionDependency.path).Nodup ∧
    ∀ p ∈ acc.map ExtensionDependency.path, p ∈ visited

/-- The invariant still holds after recording a fresh (unvisited) path. -/
theorem FlattenInv.push {visited : List String} {acc : List ExtensionDependency}
    (h : FlattenInv visited acc) (r : ExtensionDependency) (hr : r.path ∉ visited) :
    FlattenInv (r.path :: visited) (acc ++ [r]) := by
  obtain ⟨hnd, hsub⟩ := h
  constructor
  · rw [List.map_append]
    simp only [List.map_cons, List.map_nil]
    rw [List.nodup_append]
    refine ⟨hnd, List.nodup_singleton _, ?_⟩
    intro p hp hq
    simp only [List.mem_singleton] at hq
    exact hr (hq ▸ hsub p hp)
  · intro p hp
    rw [List.map_append] at hp
    rcases List.mem_append.mp hp with hp | hp
    · exact List.mem_cons_of_mem _ (hsub p hp)
    · simp only [List.map_cons, List.map_nil, List.mem_singleton] at hp
      exact hp ▸ List.mem_cons_self _ _

mutual

/-- Lemma: `yarnFlatten` preserves the invariant and only grows the visited
set. -/
theorem yarnFlatten_inv (d : YarnDependency) :
    ∀ (visited : List String) (acc : List ExtensionDependency),
      FlattenInv visited acc →
      FlattenInv (yarnFlatten visited acc d).1 (yarnFlatten visited acc d).2 ∧
        ∀ p ∈ visited, p ∈ (yarnFlatten visited acc d).1 := by
  cases d with
  | mk name path version children =>
    intro visited acc h
    unfold yarnFlatten
    by_cases hp : path ∈ visited
    · simp only [if_pos hp]
      exact ⟨h, fun _ hq => hq⟩
    · simp only [if_neg hp]
      have h' := FlattenInv.push h ⟨name, some version, path⟩ hp
      obtain ⟨hinv, hgrow⟩ := yarnFlattenList_inv children (path :: visited)
        (acc ++ [⟨name, some version, path⟩]) h'
      exact ⟨hinv, fun p hq => hgrow p (List.mem_cons_of_mem _ hq)⟩

/-- Lemma: `yarnFlattenList` preserves the invariant and only grows the visited
set. -/
theorem yarnFlattenList_inv (ds : List YarnDependency) :
    ∀ (visited : List String) (acc : List ExtensionDependency),
      FlattenInv visited acc →
      FlattenInv (yarnFlattenList visited acc ds).1 (yarnFlattenList visited acc ds).2 ∧
        ∀ p ∈ visited, p ∈ (yarnFlattenList visited acc ds).1 := by
  cases ds with
  | nil =>
    intro visited acc h
    exact ⟨h, fun _ hq => hq⟩
  | cons d ds =>
    intro visited acc h
    unfold yarnFlattenList
    obtain ⟨hinv1, hgrow1⟩ := yarnFlatten_inv d visited acc h
    obtain ⟨hinv2, hgrow2⟩ := yarnFlattenList_inv ds (yarnFlatten visited acc d).1
      (yarnFlatten visited acc d).2 hinv1
    exact ⟨hinv2, fun p hq => hgrow2 p (hgrow1 p hq)⟩

end

mutual

/-- Lemma: `pnpmFlatten` preserves the invariant and only grows the visited
set. -/
theorem pnpmFlatten_inv (d : PnpmDependency) :
    ∀ (visited : List String) (acc : List ExtensionDependency),
      FlattenInv visited acc →
      FlattenInv (pnpmFlatten visited acc d).1 (pnpmFlatten visited acc d).2 ∧
        ∀ p ∈ visited, p ∈ (pnpmFlatten visited acc d).1 := by
  cases d with
  | mk fromName version resolved path dependencies =>
    intro visited acc h
    unfold pnpmFlatten
    by_cases hp : path ∈ visited
    · simp only [if_pos hp]
      exact ⟨h, fun _ hq => hq⟩
    · simp only [if_neg hp]
      have h' := FlattenInv.push h ⟨fromName, some version, path⟩ hp
      obtain ⟨hinv, hgrow⟩ := pnpmFlattenList_inv dependencies (path :: visited)
        (acc ++ [⟨fromName, some version, path⟩]) h'
      exact ⟨hinv, fun p hq => hgrow p (List.mem_cons_of_mem _ hq)⟩

/-- Lemma: `pnpmFlattenList` preserves the invariant and only grows the
visited set. -/
theorem pnpmFlattenList_inv (ds : List (String × PnpmDependency)) :
    ∀ (visited : List String) (acc : List ExtensionDependency),
      FlattenInv visited acc →
      FlattenInv (pnpmFlattenList visited acc ds).1 (pnpmFlattenList visited acc ds).2 ∧
        ∀ p ∈ visited, p ∈ (pnpmFlattenList visited acc ds).1 := by
  cases ds with
  | nil =>
    intro visited acc h
    exact ⟨h, fun _ hq => hq⟩
  | cons kd ds =>
    intro visited acc h
    unfold pnpmFlattenList
    obtain ⟨hinv1, hgrow1⟩ := pnpmFlatten_inv kd.2 visited acc h
    obtain ⟨hinv2, hgrow2⟩ := pnpmFlattenList_inv ds (pnpmFlatten visited acc kd.2).1
      (pnpmFlatten visited acc kd.2).2 hinv1
    exact ⟨hinv2, fun p hq => hgrow2 p (hgrow1 p hq)⟩

end

/-- C1: every dependency list produced by the yarn (Format B) or pnpm
(Format C) branch of `getExtensionDependencies` has pairwise distinct
installed paths, including on trees with diamond sharing — the visited
set consulted before each record is appended guarantees at most one
record per constructed path. -/
theorem dependency_paths_nodup :
    (∀ (cwd : String) (trees : List YarnTreeNode),
      ((yarnPipeline cwd trees).map ExtensionDependency.path).Nodup) ∧
    (∀ entryDeps : List (String × PnpmDependency),
      ((pnpmPipeline entryDeps).map ExtensionDependency.path).Nodup) ∧
    (∀ (parseTreeLine : String → Except String (Option (List YarnTreeNode)))
      (cwd : String) (stdoutLines : List String) (out : List ExtensionDependency),
      yarnBranch parseTreeLine cwd stdoutLines = .ok out →
      (out.map ExtensionDependency.path).Nodup) ∧
    (∀ (parsed : Option Json) (out : List ExtensionDependency),
      pnpmBranch parsed = .ok out → (out.map ExtensionDependency.path).Nodup) := by
  have base : FlattenInv [] [] := ⟨List.nodup_nil, fun _ hp => absurd hp (List.not_mem_nil _)⟩
  have hyarn : ∀ (cwd : String) (trees : List YarnTreeNode),
      ((yarnPipeline cwd trees).map ExtensionDependency.path).Nodup := by
    intro cwd trees
    exact (yarnFlattenList_inv (asYarnChildren true (posixJoin cwd "node_modules") trees)
      [] [] base).1.1
  have hpnpm : ∀ entryDeps : List (String × PnpmDependency),
      ((pnpmPipeline entryDeps).map ExtensionDependency.path).Nodup := by
    intro entryDeps
    exact (pnpmFlattenList_inv entryDeps [] [] base).1.1
  refine ⟨hyarn, hpnpm, ?_, ?_⟩
  · intro parseTreeLine cwd stdoutLines out h
    unfold yarnBranch at h
    cases hfind : stdoutLines.find? yarnMatchLine with
    | none => rw [hfind] at h; exact Except.noConfusion h
    | some line =>
      rw [hfind] at h
      dsimp only at h
      cases hline : parseTreeLine line with
      | error e => rw [hline] at h; exact Except.noConfusion h
      | ok otrees =>
        rw [hline] at h
        cases otrees with
        | none => cases h; exact List.nodup_nil
        | some trees =>
          dsimp only at h
          by_cases hemp : trees.isEmpty
          · rw [if_pos hemp] at h
            cases h
            exact List.nodup_nil
          · rw [if_neg hemp] at h
            cases h
            exact hyarn cwd trees
  · intro parsed out h
    unfold pnpmBranch at h
    match parsed, h with
    | none, h => cases h; exact List.nodup_nil
    | some (.arr []), h => cases h; exact List.nodup_nil
    | some (.arr (.obj fields :: rest)), h =>
      revert h
      dsimp only
      cases jsonLookup fields "dependencies" with
      | none => intro h; cases h; exact List.nodup_nil
      | some v =>
        cases v with
        | obj dfields => intro h; cases h; exact hpnpm (decodePnpmDeps dfields)
        | null => intro h; cases h; exact List.nodup_nil
        | bool b => intro h; cases h; exact List.nodup_nil
        | num n => intro h; cases h; exact List.nodup_nil
        | str s => intro h; cases h; exact List.nodup_nil
        | arr elems => intro h; cases h; exact hpnpm (decodePnpmArrDeps 0 elems)
    | some .null, h => cases h; exact List.nodup_nil
    | some (.bool b), h => cases h; exact List.nodup_nil
    | some (.num n), h => cases h; exact List.nodup_nil
    | some (.str s), h => cases h; exact List.nodup_nil
    | some (.arr (.null :: rest)), h => cases h; exact List.nodup_nil
    | some (.arr (.bool b :: rest)), h => cases h; exact List.nodup_nil
    | some (.arr (.num n :: rest)), h => cases h; exact List.nodup_nil
    | some (.arr (.str s :: rest)), h => cases h; exact List.nodup_nil
    | some (.arr (.arr elems :: rest)), h => cases h; exact List.nodup_nil
    | some (.obj fields), h => cases h; exact List.nodup_nil

/-- C1 witness: a diamond-shaped pnpm tree — the same shared
sub-dependency `c` reachable through both `a` and `b` at one hoisted
install path — flattens to one record per distinct path. -/
theorem dependency_paths_nodup_witness :
    pnpmPipeline
        [("a", .mk "a" "1.0.0" "r" "/r/node_modules/a"
            [("c", .mk "c" "3.0.0" "r" "/r/node_modules/c" [])]),
         ("b", .mk "b" "2.0.0" "r" "/r/node_modules/b"
            [("c", .mk "c" "3.0.0" "r" "/r/node_modules/c" [])])] =
      [⟨"a", some "1.0.0", "/r/node_modules/a"⟩,
        ⟨"c", some "3.0.0", "/r/node_modules/c"⟩,
        ⟨"b", some "2.0.0", "/r/node_modules/b"⟩] ∧
    ((pnpmPipeline
        [("a", .mk "a" "1.0.0" "r" "/r/node_modules/a"
            [("c", .mk "c" "3.0.0" "r" "/r/node_modules/c" [])]),
         ("b", .mk "b" "2.0.0" "r" "/r/node_modules/b"
            [("c", .mk "c" "3.0.0" "r" "/r/node_modules/c" [])])]).map
      ExtensionDependency.path).Nodup ∧
    (([] : List ExtensionDependency).map ExtensionDependency.path).Nodup :=
  ⟨by rfl,
    dependency_paths_nodup.2.1
      [("a", .mk "a" "1.0.0" "r" "/r/node_modules/a"
          [("c", .mk "c" "3.0.0" "r" "/r/node_modules/c" [])]),
       ("b", .mk "b" "2.0.0" "r" "/r/node_modules/b"
          [("c", .mk "c" "3.0.0" "r" "/r/node_modules/c" [])])],
    dependency_paths_nodup.2.2.2 none [] (by rfl)⟩

/-! ## C3: termination of the Format B pipeline -/

/-- With fuel at least the tree size, the fueled conversion computes
exactly the unfueled conversion. -/
theorem yarnConvFuel_spec (prune : Bool) : ∀ fuel : Nat,
    (∀ (pre : String) (t : YarnTreeNode), ynodeSize t ≤ fuel →
      asYarnDependencyFuel prune fuel pre t = some (asYarnDependency prune pre t)) ∧
    (∀ (pre : String) (ts : List YarnTreeNode), ynodeSizeList ts ≤ fuel →
      asYarnChildrenFuel prune fuel pre ts = some (asYarnChildren prune pre ts)) := by
  intro fuel
  induction fuel with
  | zero =>
    constructor
    · intro pre t h
      exfalso
      cases t with
      | mk nodeName children => unfold ynodeSize at h; omega
    · intro pre ts h
      exfalso
      cases ts with
      | nil => unfold ynodeSizeList at h; omega
      | cons t ts => unfold ynodeSizeList at h; omega
  | succ fuel ih =>
    constructor
    · intro pre t h
      cases t with
      | mk nodeName children =>
        unfold ynodeSize at h
        unfold asYarnDependencyFuel asYarnDependency
        by_cases hc : prune = true ∧ hasAtRange nodeName = true
        · simp only [hc, and_self, if_true, if_pos hc]
        · simp only [if_neg hc]
          rw [ih.2 _ children (by omega)]
    · intro pre ts h
      cases ts with
      | nil => rfl
      | cons t ts =>
        unfold ynodeSizeList at h
        unfold asYarnChildrenFuel asYarnChildren
        rw [ih.1 pre t (by omega), ih.2 pre ts (by omega)]

/-- With fuel at least the converted-tree size, the fueled flattening
computes exactly the unfueled flattening. -/
theorem yarnFlattenFuel_spec : ∀ fuel : Nat,
    (∀ (d : YarnDependency) (visited : List String) (acc : List ExtensionDependency),
      ydepSize d ≤ fuel →
      yarnFlattenFuel fuel visited acc d = some (yarnFlatten visited acc d)) ∧
    (∀ (ds : List YarnDependency) (visited : List String) (acc : List ExtensionDependency),
      ydepSizeList ds ≤ fuel →
      yarnFlattenListFuel fuel visited acc ds = some (yarnFlattenList visited acc ds)) := by
  intro fuel
  induction fuel with
  | zero =>
    constructor
    · intro d visited acc h
      exfalso
      cases d with
      | mk name path version children => unfold ydepSize at h; omega
    · intro ds visited acc h
      exfalso
      cases ds with
      | nil => unfold ydepSizeList at h; omega
      | cons d ds => unfold ydepSizeList at h; omega
  | succ fuel ih =>
    constructor
    · intro d visited acc h
      cases d with
      | mk name path version children =>
        unfold ydepSize at h
        unfold yarnFlattenFuel yarnFlatten
        by_cases hp : path ∈ visited
        · simp only [if_pos hp]
        · simp only [if_neg hp]
          exact ih.2 children _ _ (by omega)
    · intro ds visited acc h
      cases ds with
      | nil => rfl
      | cons d ds =>
        unfold ydepSizeList at h
        unfold yarnFlattenListFuel yarnFlattenList
        rw [ih.1 d visited acc (by omega)]
        dsimp only
        exact ih.2 ds _ _ (by omega)

/-- C3: the whole Format B pipeline — the recursive `asYarnDependency`
conversion followed by `flatten` — terminates on every input: run with
the explicitly computed step budget `yarnPipelineBound`, the fueled
pipeline never exhausts its fuel and returns the pipeline's result.
(Yarn trees come out of `JSON.parse`, which can only produce finite
trees, so every input the branch can ever see is covered; on a
diamond-shaped or would-be cyclic constructed path the visited-set guard
additionally short-circuits the revisit.) -/
theorem yarn_pipeline_terminates (cwd : String) (trees : List YarnTreeNode) :
    yarnPipelineFuel (yarnPipelineBound cwd trees) cwd trees =
      some (yarnPipeline cwd trees) := by
  unfold yarnPipelineFuel yarnPipelineBound yarnPipeline
  rw [(yarnConvFuel_spec true _).2 (posixJoin cwd "node_modules") trees (by omega)]
  dsimp only
  rw [(yarnFlattenFuel_spec _).2
    (asYarnChildren true (posixJoin cwd "node_modules") trees) [] [] (by omega)]

/-! ## C8: user ignore rules apply to the forced inclusions -/

/-- A path segment that is not empty, `"."` or `".."` — the shape of
every segment of a glob-produced relative path. -/
def CleanSeg (seg : List Char) : Prop :=
  seg ≠ [] ∧ seg ≠ ['.'] ∧ seg ≠ ['.', '.']

instance (seg : List Char) : Decidable (CleanSeg seg) := by
  unfold CleanSeg; infer_instance

/-- A relative path all of whose `"/"`-separated segments are clean (in
particular it is nonempty, has no leading/trailing/double slash, and no
`"."`/`".."` segments) — the shape of every path the glob walk emits. -/
def CleanRel (s : String) : Prop :=
  ∀ seg ∈ pathSegs s.data, CleanSeg seg

instance (s : String) : Decidable (CleanRel s) := by
  unfold CleanRel; infer_instance

/-- Lemma: `splitCharAux` never returns an empty list. -/
theorem splitCharAux_ne_nil (sep : Char) (l : List Char) :
    ∀ acc, splitCharAux sep acc l ≠ [] := by
  induction l with
  | nil => intro acc; simp [splitCharAux]
  | cons c cs ih =>
    intro acc
    unfold splitCharAux
    split
    · simp
    · exact ih _

/-- Splitting at a separator preceded by a separator-free part cuts
exactly there. -/
theorem splitCharAux_append_sep (xs : List Char) :
    ∀ acc ys, (∀ c ∈ xs, c ≠ '/') →
      splitCharAux '/' acc (xs ++ '/' :: ys) =
        (acc.reverse ++ xs) :: splitCharAux '/' [] ys := by
  induction xs with
  | nil =>
    intro acc ys _
    simp only [List.nil_append, List.append_nil]
    rfl
  | cons x xs ih =>
    intro acc ys h
    have hx : ¬x = '/' := h x (by simp)
    rw [List.cons_append, splitCharAux, if_neg hx,
      ih (x :: acc) ys (fun c hc => h c (by simp [hc]))]
    simp

/-- Joining the segments of a split recovers the original list. -/
theorem joinSegs_splitCharAux (l : List Char) :
    ∀ acc, joinSegs (splitCharAux '/' acc l) = acc.reverse ++ l := by
  induction l with
  | nil => intro acc; simp [splitCharAux, joinSegs]
  | cons c cs ih =>
    intro acc
    by_cases hc : c = '/'
    · subst hc
      rw [splitCharAux, if_pos rfl]
      cases hsp : splitCharAux '/' [] cs with
      | nil => exact absurd hsp (splitCharAux_ne_nil '/' cs [])
      | cons s rest =>
        have hstep : joinSegs (acc.reverse :: s :: rest) =
            acc.reverse ++ '/' :: joinSegs (s :: rest) := rfl
        rw [hstep, ← hsp, ih []]
        simp
    · rw [splitCharAux, if_neg hc, ih (c :: acc)]
      simp

/-- Normalization is a no-op over clean segments. -/
theorem normSegsAux_clean (segs : List (List Char)) :
    ∀ (abs : Bool) (acc : List (List Char)), (∀ seg ∈ segs, CleanSeg seg) →
      normSegsAux abs acc segs = acc.reverse ++ segs := by
  induction segs with
  | nil => intro abs acc _; simp [normSegsAux]
  | cons seg rest ih =>
    intro abs acc h
    obtain ⟨h1, h2, h3⟩ := h seg (by simp)
    unfold normSegsAux
    rw [if_neg (by simp [h1, h2]), if_neg h3,
      ih abs (seg :: acc) (fun s hs => h s (by simp [hs]))]
    simp

/-- Normalizing `seg // rel` for a clean, separator-free leading
segment and a clean relative path collapses the double separator and
does nothing else. -/
theorem posixNormalize_clean_concat (x : Char) (xs : List Char) (rel : String)
    (hx : x ≠ '/') (hxs : ∀ c ∈ xs, c ≠ '/') (hcx : CleanSeg (x :: xs))
    (h : CleanRel rel) :
    posixNormalize (String.mk ((x :: xs) ++ '/' :: '/' :: rel.data)) =
      String.mk ((x :: xs) ++ '/' :: rel.data) := by
  have habs : strStartsWith (String.mk ((x :: xs) ++ '/' :: '/' :: rel.data)) "/" = false := by
    simp only [strStartsWith, List.cons_append]
    show (List.isPrefixOf ['/'] (x :: (xs ++ '/' :: '/' :: rel.data))) = false
    simp [List.isPrefixOf, Ne.symm hx]
  have hsegs : pathSegs (String.mk ((x :: xs) ++ '/' :: '/' :: rel.data)).data =
      (x :: xs) :: [] :: splitCharAux '/' [] rel.data := by
    show splitCharAux '/' [] ((x :: xs) ++ '/' :: '/' :: rel.data) =
      (x :: xs) :: [] :: splitCharAux '/' [] rel.data
    rw [splitCharAux_append_sep (x :: xs) [] ('/' :: rel.data)
      (fun c hc => by
        rcases List.mem_cons.mp hc with rfl | hc
        · exact hx
        · exact hxs c hc)]
    rfl
  have hnorm : normSegsAux false [] ((x :: xs) :: [] :: splitCharAux '/' [] rel.data) =
      (x :: xs) :: splitCharAux '/' [] rel.data := by
    rw [normSegsAux, if_neg (by simp [hcx.1, hcx.2.1]), if_neg hcx.2.2,
      normSegsAux, if_pos (by simp),
      normSegsAux_clean (splitCharAux '/' [] rel.data) false [x :: xs] h]
    simp
  have hne := splitCharAux_ne_nil '/' rel.data []
  unfold posixNormalize
  simp only [habs, hsegs, hnorm, Bool.false_eq_true, if_false]
  cases hsp : splitCharAux '/' ([] : List Char) rel.data with
  | nil => exact absurd hsp hne
  | cons s rest =>
    have hjs : joinSegs ((x :: xs) :: s :: rest) =
        (x :: xs) ++ '/' :: joinSegs (s :: rest) := rfl
    have hround : joinSegs (splitCharAux '/' ([] : List Char) rel.data) = rel.data := by
      rw [joinSegs_splitCharAux rel.data []]
      simp
    rw [hjs, ← hsp, hround]
    simp

/-- On a clean relative path, `path.join("extension/", rel)` is plain
concatenation. -/
theorem posixJoin_extension_clean (rel : String) (h : CleanRel rel) :
    posixJoin "extension/" rel = "extension/" ++ rel := by
  have hrel : rel ≠ "" := by
    intro hrel
    have hmem : ([] : List Char) ∈ pathSegs rel.data := by
      rw [hrel]
      exact List.mem_singleton.mpr rfl
    exact (h [] hmem).1 rfl
  unfold posixJoin posixJoinList
  rw [List.filter_cons_of_pos (by simp), List.filter_cons_of_pos (by simp [hrel]),
    List.filter_nil]
  rw [if_neg (by simp)]
  have hjoin : String.mk (joinSegs (["extension/", rel].map String.data)) =
      String.mk (('e' :: "xtension".data) ++ '/' :: '/' :: rel.data) := rfl
  rw [hjoin]
  rw [posixNormalize_clean_concat 'e' "xtension".data rel (by decide) (by decide) (by decide) h]
  apply String.ext
  simp

/-- The concatenation `"extension/" ++ rel` written through
`posixNormalize_clean_concat`'s char-level form. -/
theorem posixJoin_extension_clean_inj (g rel : String)
    (hg : CleanRel g) (hrel : CleanRel rel)
    (heq : posixJoin "extension/" g = posixJoin "extension/" rel) : g = rel := by
  rw [posixJoin_extension_clean g hg, posixJoin_extension_clean rel hrel] at heq
  have hda := congrArg String.data heq
  simp only [String.data_append] at hda
  exact String.ext (List.append_cancel_left hda)

/-- C8: the user-supplied ignore rules are applied uniformly to every
globbed file, with nothing — in particular neither forced inclusion —
exempt: each collected entry either comes from a globbed file the user
matcher does not ignore, or is an appended dependency entry; and for a
project without dependency entries, a user-ignored clean relative path
(such as `package.json` or the README) never appears in the collected
list. -/
theorem collect_user_ignore_uniform :
    (∀ (globbed : List String) (ig : String → Bool) (deps : List ExtensionDependency)
      (cwd processCwd : String) (e : VsixFile), e ∈ collect globbed ig deps cwd processCwd →
      (∃ g, g ∈ globbed ∧ ig g = false ∧
        e = VsixFile.localFile (posixJoin "extension/" g) (posixJoin cwd g)) ∨
      (∃ d, d ∈ deps ∧
        e = VsixFile.localFile (posixJoin "extension/node_modules" d.name)
          (jsReplaceFirst d.path (processCwd ++ "/") ""))) ∧
    (∀ (globbed : List String) (ig : String → Bool) (cwd processCwd : String) (rel : String),
      CleanRel rel → (∀ g ∈ globbed, CleanRel g) → ig rel = true →
      ("extension/" ++ rel) ∉ (collect globbed ig [] cwd processCwd).map VsixFile.path) := by
  have hchar : ∀ (globbed : List String) (ig : String → Bool) (deps : List ExtensionDependency)
      (cwd processCwd : String) (e : VsixFile), e ∈ collect globbed ig deps cwd processCwd →
      (∃ g, g ∈ globbed ∧ ig g = false ∧
        e = VsixFile.localFile (posixJoin "extension/" g) (posixJoin cwd g)) ∨
      (∃ d, d ∈ deps ∧
        e = VsixFile.localFile (posixJoin "extension/node_modules" d.name)
          (jsReplaceFirst d.path (processCwd ++ "/") "")) := by
    intro globbed ig deps cwd processCwd e he
    unfold collect at he
    rcases List.mem_append.mp he with he | he
    · left
      obtain ⟨g, hg, hge⟩ := List.mem_map.mp he
      obtain ⟨hgmem, hgig⟩ := List.mem_filter.mp hg
      exact ⟨g, hgmem, by simpa using hgig, hge.symm⟩
    · right
      obtain ⟨d, hd, hde⟩ := List.mem_map.mp he
      exact ⟨d, hd, hde.symm⟩
  refine ⟨hchar, ?_⟩
  intro globbed ig cwd processCwd rel hrel hglob hig hmem
  obtain ⟨e, hemem, hepath⟩ := List.mem_map.mp hmem
  rcases hchar globbed ig [] cwd processCwd e hemem with ⟨g, hg, hgig, rfl⟩ | ⟨d, hd, _⟩
  · have : posixJoin "extension/" g = "extension/" ++ rel := hepath
    rw [posixJoin_extension_clean g (hglob g hg)] at this
    have hgr : g = rel := by
      have hda := congrArg String.data this
      simp only [String.data_append] at hda
      exact String.ext (List.append_cancel_left hda)
    rw [hgr] at hgig
    rw [hig] at hgig
    exact Bool.noConfusion hgig
  · exact absurd hd (List.not_mem_nil d)

/-- C8 witness: with `.vscodeignore` rules matching `package.json`, the
forced glob inclusion does not survive collection. -/
theorem collect_user_ignore_uniform_witness :
    CleanRel "package.json" ∧
    (∀ g ∈ ["package.json", "README.md"], CleanRel g) ∧
    (fun s => s == "package.json") "package.json" = true ∧
    ("extension/" ++ "package.json") ∉
      (collect ["package.json", "README.md"] (fun s => s == "package.json") [] "/p" "/p").map
        VsixFile.path :=
  ⟨by decide, by decide, by decide,
    collect_user_ignore_uniform.2 ["package.json", "README.md"]
      (fun s => s == "package.json") "/p" "/p" "package.json" (by decide) (by decide) (by decide)⟩

/-! ## C9: in-place license rename in `processFiles` -/

/-- A located asset path always belongs to a file of the list. -/
theorem hasExtensionFile_mem (names : List (Option String)) :
    ∀ (files : List VsixFile) (p : String),
      hasExtensionFile files names = some p → ∃ f ∈ files, f.path = p := by
  induction names with
  | nil =>
    intro files p h
    exact Option.noConfusion h
  | cons n rest ih =>
    intro files p h
    cases n with
    | none => exact ih files p h
    | some nm =>
      rw [hasExtensionFile] at h
      cases hfind : files.find? (fun f => strEndsWith f.path nm) with
      | none =>
        rw [hfind] at h
        exact ih files p h
      | some f =>
        rw [hfind] at h
        cases h
        exact ⟨f, List.mem_of_find?_eq_some hfind, rfl⟩

/-- Lemma: `findIndexAux` finds an index whenever a matching element exists,
and its result is coherent: the element sits at the index and satisfies
the predicate. -/
theorem findIndexAux_spec (pred : VsixFile → Bool) :
    ∀ files : List VsixFile, (∃ f ∈ files, pred f = true) →
      ∃ i e, findIndexAux pred files = some (i, e) ∧
        files.get? i = some e ∧ pred e = true := by
  intro files
  induction files with
  | nil =>
    rintro ⟨f, hf, _⟩
    exact absurd hf (List.not_mem_nil f)
  | cons a rest ih =>
    rintro ⟨f, hf, hp⟩
    by_cases ha : pred a = true
    · exact ⟨0, a, by simp [findIndexAux, ha], rfl, ha⟩
    · have hfr : f ∈ rest := by
        rcases List.mem_cons.mp hf with rfl | h
        · exact absurd hp ha
        · exact h
      obtain ⟨i, e, h1, h2, h3⟩ := ih ⟨f, hfr, hp⟩
      refine ⟨i + 1, e, ?_, ?_, h3⟩
      · simp [findIndexAux, ha, h1]
      · simpa using h2

/-- Lemma: `List.set` leaves every other position unchanged. -/
theorem get?_set_ne {α : Type} (a : α) :
    ∀ (l : List α) (i j : Nat), j ≠ i → (l.set i a).get? j = l.get? j := by
  intro l
  induction l with
  | nil => intro i j _; simp
  | cons x xs ih =>
    intro i j h
    cases i with
    | zero =>
      cases j with
      | zero => exact absurd rfl h
      | succ j => simp [List.set]
    | succ i =>
      cases j with
      | zero => simp [List.set]
      | succ j => simpa [List.set] using ih i j (fun hh => h (by rw [hh]))

/-- C9: when the located license path has no extension, `processFiles`
renames it by appending `".md"`, records the license asset under the new
path, and the caller's file list comes back with exactly that one entry
updated in place (same index, all other entries untouched).  JavaScript
object mutation through the shared array is modelled by the returned
list. -/
theorem processFiles_license_rename (manifest : Manifest) (readme : Option String)
    (files : List VsixFile) (p : String)
    (hfind : hasExtensionFile files licenseCandidates = some p)
    (hext : extname p = "") :
    ∃ i entry,
      findIndexAux (fun f => f.path = p) files = some (i, entry) ∧
      files.get? i = some entry ∧ entry.path = p ∧
      (∀ j, j ≠ i →
        (files.set i (entry.withPath (p ++ ".md"))).get? j = files.get? j) ∧
      ∃ res, processFiles manifest readme files =
          .ok (res, files.set i (entry.withPath (p ++ ".md"))) ∧
        res.license = some (p ++ ".md") ∧
        ("Microsoft.VisualStudio.Services.Content.License", p ++ ".md") ∈ res.assets := by
  obtain ⟨f, hf, hfp⟩ := hasExtensionFile_mem licenseCandidates files p hfind
  obtain ⟨i, entry, h1, h2, h3⟩ :=
    findIndexAux_spec (fun f => f.path = p) files ⟨f, hf, by simp [hfp]⟩
  have hpath : entry.path = p := by simpa using h3
  refine ⟨i, entry, h1, h2, hpath, fun j hj => get?_set_ne _ files i j hj, ?_⟩
  unfold processFiles
  rw [hfind]
  dsimp only
  rw [if_pos hext, h1]
  exact ⟨_, rfl, rfl, by simp [mkProcessed]⟩

/-- C9 witness: a collected list holding `extension/LICENSE` (no
extension) comes back with that entry renamed to `extension/LICENSE.md`
and the license asset recorded under the new name. -/
theorem processFiles_license_rename_witness :
    hasExtensionFile
        [VsixFile.localFile "extension/package.json" "/p/package.json",
          VsixFile.localFile "extension/LICENSE" "/p/LICENSE"] licenseCandidates =
      some "extension/LICENSE" ∧
    extname "extension/LICENSE" = "" ∧
    ∃ i entry,
      findIndexAux (fun f => f.path = "extension/LICENSE")
          [VsixFile.localFile "extension/package.json" "/p/package.json",
            VsixFile.localFile "extension/LICENSE" "/p/LICENSE"] = some (i, entry) ∧
      [VsixFile.localFile "extension/package.json" "/p/package.json",
          VsixFile.localFile "extension/LICENSE" "/p/LICENSE"].get? i = some entry ∧
      entry.path = "extension/LICENSE" ∧
      (∀ j, j ≠ i →
        ([VsixFile.localFile "extension/package.json" "/p/package.json",
            VsixFile.localFile "extension/LICENSE" "/p/LICENSE"].set i
          (entry.withPath ("extension/LICENSE" ++ ".md"))).get? j =
        [VsixFile.localFile "extension/package.json" "/p/package.json",
            VsixFile.localFile "extension/LICENSE" "/p/LICENSE"].get? j) ∧
      ∃ res, processFiles {} none
          [VsixFile.localFile "extension/package.json" "/p/package.json",
            VsixFile.localFile "extension/LICENSE" "/p/LICENSE"] =
          .ok (res,
            [VsixFile.localFile "extension/package.json" "/p/package.json",
              VsixFile.localFile "extension/LICENSE" "/p/LICENSE"].set i
              (entry.withPath ("extension/LICENSE" ++ ".md"))) ∧
        res.license = some ("extension/LICENSE" ++ ".md") ∧
        ("Microsoft.VisualStudio.Services.Content.License", "extension/LICENSE" ++ ".md") ∈
          res.assets :=
  ⟨by rfl, by rfl,
    processFiles_license_rename {} none
      [VsixFile.localFile "extension/package.json" "/p/package.json",
        VsixFile.localFile "extension/LICENSE" "/p/LICENSE"] "extension/LICENSE"
      (by rfl) (by rfl)⟩

/-! ## C10: undetermined content types are fatal -/

/-- The failing condition: the lowercased extension is neither in the
built-in table nor resolvable through `mime.getType`. -/
def badContentExt (mimeLookup : String → Option String) (f : VsixFile) : Bool :=
  (lookupStr defaultMimeTypes (strToLower (extname f.path))).isNone &&
    (mimeLookup (strToLower (extname f.path))).isNone

/-- The content-type loop fails exactly on a file with an unresolvable
extension, with the first such file's path in the message, regardless of
the accumulator. -/
theorem contentTypesGo_error (mimeLookup : String → Option String) :
    ∀ (files : List VsixFile) (acc : List (String × String)),
      ((∃ msg, contentTypesGo mimeLookup files acc = .error msg) ↔
        ∃ f ∈ files, badContentExt mimeLookup f = true) ∧
      (∀ msg, contentTypesGo mimeLookup files acc = .error msg →
        ∃ f ∈ files, badContentExt mimeLookup f = true ∧
          msg = "could not determine content type for file: " ++ f.path) := by
  intro files
  induction files with
  | nil =>
    intro acc
    refine ⟨⟨fun ⟨msg, h⟩ => Except.noConfusion h,
      fun ⟨f, hf, _⟩ => absurd hf (List.not_mem_nil f)⟩, ?_⟩
    intro msg h
    exact Except.noConfusion h
  | cons f rest ih =>
    intro acc
    cases hdef : lookupStr defaultMimeTypes (strToLower (extname f.path)) with
    | some ct =>
      have hbad : badContentExt mimeLookup f = false := by
        simp [badContentExt, hdef]
      have hstep : contentTypesGo mimeLookup (f :: rest) acc =
          contentTypesGo mimeLookup rest
            (recordSet acc (strToLower (extname f.path)) ct) := by
        rw [contentTypesGo, hdef]
      obtain ⟨hiff, hmsg⟩ := ih (recordSet acc (strToLower (extname f.path)) ct)
      refine ⟨?_, ?_⟩
      · rw [hstep, hiff]
        constructor
        · rintro ⟨g, hg, hbg⟩
          exact ⟨g, List.mem_cons_of_mem f hg, hbg⟩
        · rintro ⟨g, hg, hbg⟩
          rcases List.mem_cons.mp hg with rfl | hg
          · exact absurd hbg (by simp [hbad])
          · exact ⟨g, hg, hbg⟩
      · intro msg h
        rw [hstep] at h
        obtain ⟨g, hg, hbg, hm⟩ := hmsg msg h
        exact ⟨g, List.mem_cons_of_mem f hg, hbg, hm⟩
    | none =>
      cases hmime : mimeLookup (strToLower (extname f.path)) with
      | none =>
        have hbad : badContentExt mimeLookup f = true := by
          simp [badContentExt, hdef, hmime]
        have hstep : contentTypesGo mimeLookup (f :: rest) acc =
            .error ("could not determine content type for file: " ++ f.path) := by
          rw [contentTypesGo, hdef, hmime]
        refine ⟨⟨fun _ => ⟨f, List.mem_cons_self f rest, hbad⟩,
          fun _ => ⟨_, hstep⟩⟩, ?_⟩
        intro msg h
        rw [hstep] at h
        cases h
        exact ⟨f, List.mem_cons_self f rest, hbad, rfl⟩
      | some ct =>
        have hbad : badContentExt mimeLookup f = false := by
          simp [badContentExt, hmime]
        have hstep : contentTypesGo mimeLookup (f :: rest) acc =
            contentTypesGo mimeLookup rest
              (recordSet acc (strToLower (extname f.path)) ct) := by
          rw [contentTypesGo, hdef, hmime]
        obtain ⟨hiff, hmsg⟩ := ih (recordSet acc (strToLower (extname f.path)) ct)
        refine ⟨?_, ?_⟩
        · rw [hstep, hiff]
          constructor
          · rintro ⟨g, hg, hbg⟩
            exact ⟨g, List.mem_cons_of_mem f hg, hbg⟩
          · rintro ⟨g, hg, hbg⟩
            rcases List.mem_cons.mp hg with rfl | hg
            · exact absurd hbg (by simp [hbad])
            · exact ⟨g, hg, hbg⟩
        · intro msg h
          rw [hstep] at h
          obtain ⟨g, hg, hbg, hm⟩ := hmsg msg h
          exact ⟨g, List.mem_cons_of_mem f hg, hbg, hm⟩

/-- C10: `getContentTypesForFiles` throws — with the offending file's
path in the message — exactly when some file's lowercased extension is
neither in the built-in table nor resolvable by the `mime` lookup; in
particular a file with no extension at all (empty extension, e.g. an
un-renamed `LICENSE`) fails rather than being skipped, the source's
empty-extension guard being dead code. -/
theorem getContentTypesForFiles_error_iff (mimeLookup : String → Option String)
    (files : List VsixFile) :
    ((∃ msg, getContentTypesForFiles mimeLookup files = .error msg) ↔
      ∃ f ∈ files, badContentExt mimeLookup f = true) ∧
    (∀ msg, getContentTypesForFiles mimeLookup files = .error msg →
      ∃ f ∈ files, badContentExt mimeLookup f = true ∧
        msg = "could not determine content type for file: " ++ f.path) ∧
    (∀ f ∈ files, extname f.path = "" → mimeLookup "" = none →
      ∃ msg, getContentTypesForFiles mimeLookup files = .error msg) := by
  obtain ⟨hiff, hmsg⟩ := contentTypesGo_error mimeLookup files []
  refine ⟨hiff, hmsg, ?_⟩
  intro f hf hext hm
  refine hiff.mpr ⟨f, hf, ?_⟩
  have hlower : strToLower (extname f.path) = "" := by rw [hext]; rfl
  have hdeflt : lookupStr defaultMimeTypes "" = none := rfl
  simp [badContentExt, hlower, hm, hdeflt]

/-- C10 witness: a single un-renamed `LICENSE` file with a mime lookup
that resolves nothing makes the call fail. -/
theorem getContentTypesForFiles_error_iff_witness :
    VsixFile.inMemoryFile "extension/LICENSE" "MIT" ∈
      [VsixFile.inMemoryFile "extension/LICENSE" "MIT"] ∧
    extname (VsixFile.inMemoryFile "extension/LICENSE" "MIT").path = "" ∧
    ((fun _ => none : String → Option String) "" = none) ∧
    ∃ msg, getContentTypesForFiles (fun _ => none)
        [VsixFile.inMemoryFile "extension/LICENSE" "MIT"] = .error msg :=
  ⟨by simp, by rfl, by rfl,
    (getContentTypesForFiles_error_iff (fun _ => none)
        [VsixFile.inMemoryFile "extension/LICENSE" "MIT"]).2.2
      (VsixFile.inMemoryFile "extension/LICENSE" "MIT") (by simp) (by rfl) (by rfl)⟩

end VsixUtils
